import Mathlib

/-!
Verification of the gonum test-harness fragments: the guarded-vector
builders and validators of `internal/asm/f64/asm_test.go`, the increment
enumerators, and the `Dlasr` reference cross-checker of
`lapack/testlapack/dlasr.go`.

Machine `float64` values are modelled by the type `F` below: `nan`, signed
infinities, and finite values represented by rationals.  Go slices of
`float64` are modelled as `List F`; Go `int` is modelled as `Int` (or `ℕ`
where the quantity is a length).  A Go operation that can panic is modelled
with `Option`, `none` standing for the panic.
-/

/-- Model of a `float64` value: `nan`, a signed infinity (`inf true` is
`+∞`), or a finite value represented exactly by a rational. -/
inductive F where
  | nan : F
  | inf : Bool → F
  | fin : ℚ → F
deriving DecidableEq, Repr

/-- Model of `math.IsNaN`. -/
def F.isNaN : F → Bool
  | .nan => true
  | _ => false

/-- Model of Go `==` on `float64`: `nan` compares unequal to everything
(including itself); infinities compare by sign; finite values by value. -/
def F.beq : F → F → Bool
  | .nan, _ => false
  | _, .nan => false
  | .inf a, .inf b => a == b
  | .fin q, .fin r => q == r
  | _, _ => false

/-- Model of `float64` subtraction, used only inside the tolerance
comparisons: `nan` propagates, `∞ - ∞` of equal signs is `nan`. -/
def F.sub : F → F → F
  | .nan, _ => .nan
  | _, .nan => .nan
  | .inf a, .inf b => if a == b then .nan else .inf a
  | .inf a, .fin _ => .inf a
  | .fin _, .inf b => .inf (!b)
  | .fin q, .fin r => .fin (q - r)

/-- Model of `math.Abs`. -/
def F.abs : F → F
  | .nan => .nan
  | .inf _ => .inf true
  | .fin q => .fin |q|

/-- Model of `<=` on `float64`: any comparison involving `nan` is false. -/
def F.le : F → F → Bool
  | .nan, _ => false
  | _, .nan => false
  | .inf a, .inf b => !a || b
  | .inf a, .fin _ => !a
  | .fin _, .inf b => b
  | .fin q, .fin r => decide (q ≤ r)

/-- Model of `math.Max`: `nan` if either argument is `nan`. -/
def F.fmax : F → F → F
  | .nan, _ => .nan
  | _, .nan => .nan
  | .inf true, _ => .inf true
  | _, .inf true => .inf true
  | .inf false, x => x
  | x, .inf false => x
  | .fin q, .fin r => .fin (max q r)

/-- Model of `float64` multiplication, used by the relative-tolerance
comparison: `nan` propagates and `∞ * 0` is `nan`. -/
def F.mul : F → F → F
  | .nan, _ => .nan
  | _, .nan => .nan
  | .inf a, .inf b => .inf (a == b)
  | .inf a, .fin q => if q == 0 then .nan else .inf (a == decide (0 < q))
  | .fin q, .inf b => if q == 0 then .nan else .inf (b == decide (0 < q))
  | .fin q, .fin r => .fin (q * r)

/-- Modelled from the spec: `scalar.Same` (package `floats/scalar`, not part
of the visible sources) — two values are the same when both are `nan` or
they are equal as `float64` values. -/
def Same (a b : F) : Bool := F.beq a b || (F.isNaN a && F.isNaN b)

/-- Modelled from the spec: absolute-tolerance part of the approximate
equality oracle — equal values, or `|a-b| <= tol`. -/
def EqualWithinAbs (a b tol : F) : Bool :=
  F.beq a b || F.le (F.abs (F.sub a b)) tol

/-- Modelled from the spec: relative-tolerance part of the approximate
equality oracle — equal values, or `|a-b| <= tol * max |a| |b|`. -/
def EqualWithinRel (a b tol : F) : Bool :=
  F.beq a b || F.le (F.abs (F.sub a b)) (F.mul tol (F.fmax (F.abs a) (F.abs b)))

/-- Modelled from the spec: `scalar.EqualWithinAbsOrRel` — the combined
absolute-or-relative tolerance comparison. -/
def EqualWithinAbsOrRel (a b absTol relTol : F) : Bool :=
  EqualWithinAbs a b absTol || EqualWithinRel a b relTol

/-- Model of `sameApprox` from `asm_test.go`: nan-aware equality within
tolerance. -/
def sameApprox (a b tol : F) : Bool :=
  Same a b || EqualWithinAbsOrRel a b tol tol

/-- Writes a list of `(index, value)` pairs into a list, left to right, by
`List.set`; an out-of-range index is ignored (as in Go `copy` truncation).
Loops of the form `for i := ... { s[e i] = v i }` are modelled this way. -/
def writeAll (l : List α) (ws : List (ℕ × α)) : List α :=
  ws.foldl (fun acc p => acc.set p.1 p.2) l

/-- Model of Go `copy(dst[start:], src)`: element `i` of `src` is written to
offset `start + i` of `dst`, truncating at the end of `dst`. -/
def copyInto (dst : List α) (start : ℕ) (src : List α) : List α :=
  writeAll dst (src.enum.map (fun p => (start + p.1, p.2)))

/-- Model of `guardVector` from `asm_test.go`: copies `vec` into a new slice
with `gdLn` cells of sigil value `gdVal` at each end. -/
def guardVector (vec : List F) (gdVal : F) (gdLn : ℕ) : List F :=
  let guarded := copyInto (List.replicate (vec.length + gdLn * 2) (F.fin 0)) gdLn vec
  writeAll guarded ((List.range gdLn).flatMap
    (fun i => [(i, gdVal), (guarded.length - 1 - i, gdVal)]))

/-- Model of `isValidGuard` from `asm_test.go`: tests for violated guards
generated by `guardVector`. -/
def isValidGuard (vec : List F) (gdVal : F) (gdLn : ℕ) : Bool :=
  (List.range gdLn).all (fun i =>
    Same (vec.getD i (F.fin 0)) gdVal && Same (vec.getD (vec.length - 1 - i) (F.fin 0)) gdVal)

/-- Model of `newGuardedVector` from `asm_test.go`: allocates a buffer of
`NaN` values with two guard regions of length `2*|inc|` around a strided
vector holding `data` at indices `i*|inc|`.  Returns `none` when the Go code
panics: a negative `make` length, or the slice expression
`whole[guard : len(whole)-guard]` with inverted bounds (reachable for empty
`data` and stride magnitude at least 2). -/
def newGuardedVector (data : List F) (inc : Int) :
    Option (List F × List F × List F) :=
  let inc := if inc < 0 then -inc else inc
  let guard : Int := 2 * inc
  let size : Int := ((data.length : Int) - 1) * inc + 1
  let wholeLen : Int := size + 2 * guard
  if wholeLen < 0 then none
  else if 0 ≤ guard ∧ guard ≤ wholeLen - guard then
    let whole := List.replicate wholeLen.toNat F.nan
    let v := writeAll ((whole.drop guard.toNat).take size.toNat)
      (data.enum.map (fun p => (p.1 * inc.toNat, p.2)))
    some (v, whole.take guard.toNat, whole.drop (wholeLen - guard).toNat)
  else none

/-- Model of `allNaN` from `asm_test.go`: true when every element is `NaN`. -/
def allNaN (x : List F) : Bool := x.all F.isNaN

/-- Recursion underlying `equalStrided`: walks the reference vector, reading
`x[i*inc]`; `none` models the Go index panic on an out-of-range read. -/
def equalStridedAux (x : List F) (inc : ℕ) : List F → ℕ → Option Bool
  | [], _ => some true
  | r :: rest, i =>
    match x[i * inc]? with
    | none => none
    | some xv => if Same xv r then equalStridedAux x inc rest (i + 1) else some false

/-- Model of `equalStrided` from `asm_test.go`: true when the strided vector
`x` holds the elements of `ref` at indices `i*inc`. -/
def equalStrided (ref x : List F) (inc : Int) : Option Bool :=
  let inc := if inc < 0 then -inc else inc
  equalStridedAux x inc.toNat ref 0

/-- Model of `nonStridedWrite` from `asm_test.go`: false when all elements of
`x` at non-stride indices are `NaN`, true otherwise. -/
def nonStridedWrite (x : List F) (inc : Int) : Bool :=
  let inc := if inc < 0 then -inc else inc
  x.enum.any (fun p => decide (p.1 % inc.toNat ≠ 0) && !F.isNaN p.2)

/-- Model of `guardIncVector` from `asm_test.go`: copies `vec` into a new
buffer at stride `|inc|` with `gdLen` end guards; every slot not holding an
element of `vec` is filled with the sigil value `gdVal`. -/
def guardIncVector (vec : List F) (gdVal : F) (inc : Int) (gdLen : ℕ) : List F :=
  let inc := if inc < 0 then -inc else inc
  let inrLen := vec.length * inc.toNat
  writeAll (List.replicate (inrLen + gdLen * 2) gdVal)
    (vec.enum.map (fun p => (gdLen + p.1 * inc.toNat, p.2)))

/-- A guard violation reported by `checkValidIncGuard`, carrying the offset
printed by the corresponding `t.Errorf` call. -/
inductive Violation where
  | front : Int → Violation
  | back : Int → Violation
  | internal : Int → Violation
deriving DecidableEq, Repr

/-- Model of `checkValidIncGuard` from `asm_test.go`: returns the list of
guard violations reported via `t.Errorf`, in scan order.  Go's truncated
integer `%` and `/` are `Int.tmod` and `Int.tdiv`. -/
def checkValidIncGuard (vec : List F) (gdVal : F) (inc : Int) (gdLen : ℕ) :
    List Violation :=
  let srcLn : Int := (vec.length : Int) - 2 * gdLen
  vec.enum.filterMap (fun p =>
    if Same p.2 gdVal then none
    else if ((p.1 : Int) - gdLen).tmod inc = 0 ∧
        ((p.1 : Int) - gdLen).tdiv inc < (vec.length : Int) then none
    else if (p.1 : Int) < (gdLen : Int) then some (.front p.1)
    else if (p.1 : Int) > (gdLen : Int) + srcLn then
      some (.back ((p.1 : Int) - gdLen - srcLn))
    else some (.internal ((p.1 : Int) - gdLen)))

/-- Model of the `incSet` struct from `asm_test.go`: a pair of increments. -/
structure incSet where
  x : Int
  y : Int
deriving DecidableEq, Repr

/-- Model of the `incToSet` struct from `asm_test.go`: a destination
increment and two source increments. -/
structure incToSet where
  dst : Int
  x : Int
  y : Int
deriving DecidableEq, Repr

/-- Model of `newIncSet` from `asm_test.go`: all `(x, y)` combinations of the
input increment set, with the pair of `inc[x]` and `inc[y]` at index
`x*n+y`. -/
def newIncSet (inc : List Int) : List incSet :=
  let n := inc.length
  writeAll (List.replicate (n * n) ⟨0, 0⟩)
    (inc.enum.flatMap (fun px => inc.enum.map (fun py =>
      (px.1 * n + py.1, incSet.mk px.2 py.2))))

/-- Model of `newIncToSet` from `asm_test.go`: all `(dst, x, y)` combinations
of the input increment set, at index `i*n*n+x*n+y`. -/
def newIncToSet (inc : List Int) : List incToSet :=
  let n := inc.length
  writeAll (List.replicate (n * n * n) ⟨0, 0, 0⟩)
    (inc.enum.flatMap (fun pi => inc.enum.flatMap (fun px => inc.enum.map (fun py =>
      (pi.1 * n * n + px.1 * n + py.1, incToSet.mk pi.2 px.2 py.2)))))

/-- Model of `lapack.Pivot`. -/
inductive Pivot where
  | Variable : Pivot
  | Top : Pivot
  | Bottom : Pivot
deriving DecidableEq, Repr

/-- Model of `lapack.Direct`. -/
inductive Direct where
  | Forward : Direct
  | Backward : Direct
deriving DecidableEq, Repr

/-- Model of `blas.Side`. -/
inductive Side where
  | L : Side
  | R : Side
deriving DecidableEq, Repr

/-- The elementary rotation matrix `P_k` built by the cross-checker of
`DlasrTest` (lines 106–130 of `dlasr.go`): the identity with four entries
overridden according to the pivot policy.  The conditions appear in reverse
order of the Go assignments so that a later assignment wins where positions
coincide (pivot `Bottom` with `k = 0`). -/
def mkPk (pivot : Pivot) (pSize : ℕ) (c s : List ℚ) (k : ℕ) :
    Matrix (Fin pSize) (Fin pSize) ℚ :=
  fun i j =>
    match pivot with
    | .Variable =>
      if i.val = k + 1 ∧ j.val = k + 1 then c.getD k 0
      else if i.val = k + 1 ∧ j.val = k then -(s.getD k 0)
      else if i.val = k ∧ j.val = k + 1 then s.getD k 0
      else if i.val = k ∧ j.val = k then c.getD k 0
      else if i = j then 1 else 0
    | .Top =>
      if i.val = k + 1 ∧ j.val = k + 1 then c.getD k 0
      else if i.val = k + 1 ∧ j.val = 0 then -(s.getD k 0)
      else if i.val = 0 ∧ j.val = k + 1 then s.getD k 0
      else if i.val = 0 ∧ j.val = 0 then c.getD k 0
      else if i = j then 1 else 0
    | .Bottom =>
      if i.val = pSize - 1 ∧ j.val = pSize - 1 then c.getD k 0
      else if i.val = pSize - 1 ∧ j.val = pSize - 1 - k then -(s.getD k 0)
      else if i.val = pSize - 1 - k ∧ j.val = pSize - 1 then s.getD k 0
      else if i.val = pSize - 1 - k ∧ j.val = pSize - k - 1 then c.getD k 0
      else if i = j then 1 else 0

/-- The cumulative rotation matrix built by the cross-checker loop of
`DlasrTest` (lines 99–138 of `dlasr.go`): `p` starts as the identity and each
`P_k` is pre-multiplied (`Forward`) or post-multiplied (`Backward`) into the
accumulator.  `blas64.Gemm` (an external collaborator, modelled from the
spec's dense-matrix-multiply capability) is the Mathlib matrix product. -/
def rotAccum (pivot : Pivot) (direct : Direct) (pSize : ℕ) (c s : List ℚ) :
    Matrix (Fin pSize) (Fin pSize) ℚ :=
  (List.range s.length).foldl
    (fun p k =>
      let pk := mkPk pivot pSize c s k
      if direct = Direct.Forward then pk * p else p * pk) 1

/-- Model of Go `copy(dst, src)`: the first `min(len(dst), len(src))`
elements of `dst` are replaced by those of `src`. -/
def goCopy (dst src : List α) : List α :=
  src.take (min dst.length src.length) ++ dst.drop (min dst.length src.length)

/-- Row-major dense matrix with explicit leading dimension, mirroring
`blas64.General`; the rational entries abstract the `float64` arithmetic of
the cross-checker. -/
structure GeMat where
  rows : ℕ
  cols : ℕ
  stride : ℕ
  data : List ℚ
deriving DecidableEq, Repr

/-- Modelled from the spec: the dense matrix multiply capability
(`blas64.Gemm` with two `NoTrans` operands, not part of the visible
sources) — writes `alpha * sum_k A[i,k]*B[k,j] + beta * C[i,j]` at
`C.data[i*C.stride+j]` for `i < C.rows`, `j < C.cols`, leaving the other
slots of the backing data untouched. -/
def gemmNN (alpha : ℚ) (A B : GeMat) (beta : ℚ) (C : GeMat) : GeMat :=
  { C with data :=
      (List.range C.data.length).map (fun idx =>
        let i := idx / C.stride
        let j := idx % C.stride
        if i < C.rows ∧ j < C.cols then
          alpha * (((List.range A.cols).map (fun l =>
            A.data.getD (i * A.stride + l) 0 * B.data.getD (l * B.stride + j) 0)).sum)
            + beta * C.data.getD idx 0
        else C.data.getD idx 0) }

/-- Modelled from the spec: `floats.EqualApprox` (not part of the visible
sources) — elementwise approximate equality with combined
absolute-or-relative tolerance, false on length mismatch, over the rational
abstraction. -/
def equalApproxQ (a b : List ℚ) (tol : ℚ) : Bool :=
  a.length == b.length &&
    (a.zip b).all (fun p => p.1 == p.2 || decide (|p.1 - p.2| ≤ tol) ||
      decide (|p.1 - p.2| ≤ tol * max |p.1| |p.2|))

/-- The flat data of the elementary rotation matrix `P_k` of `DlasrTest`
(lines 106–130 of `dlasr.go`): zeroed storage, diagonal set to one, then four
entries overridden in assignment order according to the pivot policy. -/
def mkPkData (pivot : Pivot) (pSize : ℕ) (c s : List ℚ) (k : ℕ) : List ℚ :=
  let ident := (List.range (pSize * pSize)).map
    (fun idx => if idx / pSize = idx % pSize then (1:ℚ) else 0)
  writeAll ident
    (match pivot with
     | .Variable =>
       [(k * pSize + k, c.getD k 0), (k * pSize + k + 1, s.getD k 0),
        ((k + 1) * pSize + k, -(s.getD k 0)), ((k + 1) * pSize + k + 1, c.getD k 0)]
     | .Top =>
       [(0, c.getD k 0), (k + 1, s.getD k 0),
        ((k + 1) * pSize, -(s.getD k 0)), ((k + 1) * pSize + k + 1, c.getD k 0)]
     | .Bottom =>
       [((pSize - 1 - k) * pSize + pSize - k - 1, c.getD k 0),
        ((pSize - 1 - k) * pSize + pSize - 1, s.getD k 0),
        ((pSize - 1) * pSize + pSize - 1 - k, -(s.getD k 0)),
        ((pSize - 1) * pSize + pSize - 1, c.getD k 0)])

/-- The flat cross-checker accumulation loop of `DlasrTest` (lines 80–138 of
`dlasr.go`): `p` and `ptmp` start as the identity and each `P_k` is
multiplied in on the side selected by `direct`; `copy(ptmp.Data, p.Data)`
threads the result to the next iteration. -/
def accumFlat (pivot : Pivot) (direct : Direct) (pSize : ℕ) (c s : List ℚ) : GeMat :=
  (List.range s.length).foldl
    (fun p k =>
      let pk : GeMat := ⟨pSize, pSize, pSize, mkPkData pivot pSize c s k⟩
      if direct = Direct.Forward then gemmNN 1 pk p 0 ⟨pSize, pSize, pSize, p.data⟩
      else gemmNN 1 p pk 0 ⟨pSize, pSize, pSize, p.data⟩)
    ⟨pSize, pSize, pSize, (List.range (pSize * pSize)).map
      (fun idx => if idx / pSize = idx % pSize then (1:ℚ) else 0)⟩

/-- Model of the body of one `DlasrTest` trial (lines 44–162 of `dlasr.go`),
parameterised by the implementation under test and the random draws (the
matrix `aInit` and the rotation cosines `c` and sines `s`): true exactly when
the trial reports `A update mismatch`.  It reproduces the source's
`aCopy := make(...); copy(a, aCopy)` statements, which overwrite `a` with
zeros, and its reference matrix `aMat`, which is allocated but never filled
from `A`. -/
def dlasrTrialMismatch
    (impl : Side → Pivot → Direct → ℕ → ℕ → List ℚ → List ℚ → List ℚ → ℕ → List ℚ)
    (side : Side) (pivot : Pivot) (direct : Direct) (m n lda : ℕ)
    (aInit c s : List ℚ) : Bool :=
  let a := aInit
  let aCopy := List.replicate a.length (0:ℚ)
  let a := goCopy a aCopy
  let a := impl side pivot direct m n c s a lda
  let pSize := if side = Side.L then m else n
  let p := accumFlat pivot direct pSize c s
  let aMat : GeMat := ⟨m, n, lda, List.replicate (m * lda) 0⟩
  let a := goCopy a aCopy
  let newA : GeMat := ⟨m, n, lda, List.replicate (m * lda) 0⟩
  let newA := if side = Side.L then gemmNN 1 p aMat 0 newA else gemmNN 1 aMat p 0 newA
  !(equalApproxQ newA.data a (1 / 1000000000000))

theorem F.beq_refl (x : F) : F.beq x x = (!x.isNaN) := by
  rcases x with _ | s | q <;> simp [F.beq, F.isNaN]

theorem Same_refl (x : F) : Same x x = true := by
  rcases x with _ | s | q <;> simp [Same, F.beq, F.isNaN]

theorem F.beq_symm (a b : F) : F.beq a b = F.beq b a := by
  rcases a with _ | sa | qa <;> rcases b with _ | sb | qb <;>
    first
      | rfl
      | (cases sa <;> cases sb <;> rfl)
      | (simp only [F.beq]
         by_cases h : qa = qb
         · subst h; rfl
         · rw [beq_eq_false_iff_ne.mpr h, beq_eq_false_iff_ne.mpr (Ne.symm h)])

theorem F.abs_sub_swap (a b : F) : (F.sub a b).abs = (F.sub b a).abs := by
  rcases a with _ | sa | qa <;> rcases b with _ | sb | qb <;>
    first
      | rfl
      | (cases sa <;> cases sb <;> rfl)
      | (simp only [F.sub, F.abs]
         exact congrArg F.fin (abs_sub_comm qa qb))

theorem F.fmax_abs_comm (a b : F) : F.fmax a.abs b.abs = F.fmax b.abs a.abs := by
  rcases a with _ | sa | qa <;> rcases b with _ | sb | qb <;>
    first
      | rfl
      | (simp [F.abs, F.fmax, max_comm])

/-- C7: the approximate-equality oracle `sameApprox` is reflexive —
`sameApprox x x tol` is true for every value `x` (finite, `nan`, or
infinite) — and symmetric — `sameApprox a b tol = sameApprox b a tol`
for all values and every tolerance. -/
theorem sameApprox_refl_and_symm :
    (∀ x tol : F, sameApprox x x tol = true) ∧
    (∀ a b tol : F, sameApprox a b tol = sameApprox b a tol) := by
  constructor
  · intro x tol
    simp [sameApprox, Same_refl]
  · intro a b tol
    simp only [sameApprox, Same, EqualWithinAbsOrRel, EqualWithinAbs, EqualWithinRel]
    rw [F.beq_symm, F.abs_sub_swap, F.fmax_abs_comm, Bool.and_comm]

theorem writeAll_nil (l : List α) : writeAll l [] = l := rfl

theorem writeAll_cons (l : List α) (p : ℕ × α) (ws : List (ℕ × α)) :
    writeAll l (p :: ws) = writeAll (l.set p.1 p.2) ws := rfl

theorem length_writeAll (l : List α) (ws : List (ℕ × α)) :
    (writeAll l ws).length = l.length := by
  induction ws generalizing l with
  | nil => rfl
  | cons p rest ih => rw [writeAll_cons, ih, List.length_set]

theorem getElem?_writeAll_of_forall_ne (l : List α) (ws : List (ℕ × α)) (k : ℕ)
    (h : ∀ p ∈ ws, p.1 ≠ k) : (writeAll l ws)[k]? = l[k]? := by
  induction ws generalizing l with
  | nil => rfl
  | cons p rest ih =>
    rw [writeAll_cons, ih _ (fun q hq => h q (List.mem_cons_of_mem _ hq))]
    exact List.getElem?_set_ne (h p (List.mem_cons_self _ _) )

theorem getElem?_writeAll_of_mem {l : List α} {ws : List (ℕ × α)} {k : ℕ} {v : α}
    (hmem : (k, v) ∈ ws) (hagree : ∀ p ∈ ws, p.1 = k → p.2 = v)
    (hk : k < l.length) : (writeAll l ws)[k]? = some v := by
  induction ws generalizing l with
  | nil => cases hmem
  | cons p rest ih =>
    rw [writeAll_cons]
    by_cases hrest : ∃ v', (k, v') ∈ rest
    · obtain ⟨v', hv'⟩ := hrest
      have hvv : v' = v := hagree (k, v') (List.mem_cons_of_mem _ hv') rfl
      subst hvv
      exact ih hv' (fun q hq h1 => hagree q (List.mem_cons_of_mem _ hq) h1)
        (by rw [List.length_set]; exact hk)
    · have hp : p = (k, v) := by
        rcases List.mem_cons.mp hmem with h | h
        · exact h.symm
        · exact absurd ⟨v, h⟩ hrest
      subst hp
      rw [getElem?_writeAll_of_forall_ne]
      · exact List.getElem?_set_eq_of_lt v hk
      · intro q hq hq1
        exact hrest ⟨q.2, by rw [← hq1]; simpa using hq⟩

theorem length_copyInto (dst : List α) (start : ℕ) (src : List α) :
    (copyInto dst start src).length = dst.length := by
  rw [copyInto, length_writeAll]

theorem length_guardVector (vec : List F) (gdVal : F) (gdLn : ℕ) :
    (guardVector vec gdVal gdLn).length = vec.length + gdLn * 2 := by
  simp only [guardVector]
  rw [length_writeAll, length_copyInto, List.length_replicate]

theorem guardVector_guard_pos (vec : List F) (gdVal : F) (gdLn : ℕ) (k : ℕ)
    (hk : k < vec.length + gdLn * 2)
    (hj : ∃ j, j < gdLn ∧ (k = j ∨ k = vec.length + gdLn * 2 - 1 - j)) :
    (guardVector vec gdVal gdLn)[k]? = some gdVal := by
  obtain ⟨j, hjlt, hkj⟩ := hj
  have hbase : (copyInto (List.replicate (vec.length + gdLn * 2) (F.fin 0)) gdLn vec).length
      = vec.length + gdLn * 2 := by
    rw [length_copyInto, List.length_replicate]
  simp only [guardVector]
  apply getElem?_writeAll_of_mem
  · rw [List.mem_flatMap]
    refine ⟨j, List.mem_range.mpr hjlt, ?_⟩
    rw [hbase]
    rcases hkj with h | h <;> simp [h]
  · intro p hp _
    rw [List.mem_flatMap] at hp
    obtain ⟨a, _, hpa⟩ := hp
    simp only [List.mem_cons, List.mem_singleton, List.not_mem_nil, or_false] at hpa
    rcases hpa with h | h <;> simp [h]
  · rw [hbase]; exact hk

/-- C10: build-then-validate round trip for the unit-stride guard helpers —
for every vector, guard value and guard length, `isValidGuard` accepts the
buffer produced by `guardVector`. -/
theorem isValidGuard_guardVector (vec : List F) (gdVal : F) (gdLn : ℕ) :
    isValidGuard (guardVector vec gdVal gdLn) gdVal gdLn = true := by
  rw [isValidGuard, List.all_eq_true]
  intro i hi
  rw [List.mem_range] at hi
  rw [Bool.and_eq_true]
  have hres := length_guardVector vec gdVal gdLn
  constructor
  · have h1 : (guardVector vec gdVal gdLn)[i]? = some gdVal :=
      guardVector_guard_pos vec gdVal gdLn i (by omega) ⟨i, hi, Or.inl rfl⟩
    rw [List.getD_eq_getElem?_getD, h1]
    exact Same_refl gdVal
  · rw [hres]
    have h1 : (guardVector vec gdVal gdLn)[vec.length + gdLn * 2 - 1 - i]? = some gdVal :=
      guardVector_guard_pos vec gdVal gdLn _ (by omega) ⟨i, hi, Or.inr rfl⟩
    rw [List.getD_eq_getElem?_getD, h1]
    exact Same_refl gdVal

theorem normInc_eq_natAbs (inc : Int) :
    (if inc < 0 then -inc else inc) = (inc.natAbs : Int) := by
  rcases lt_trichotomy inc 0 with h | h | h
  · rw [if_pos h]; omega
  · subst h; rfl
  · rw [if_neg (by omega)]; omega

/-- C3 counterexample: with empty data and stride 2 the slice expression
`whole[guard : len(whole)-guard]` in `newGuardedVector` has inverted bounds
(`whole[4:3]`), so the Go code panics instead of returning the two guard
regions. -/
theorem newGuardedVector_empty_inc2_panics : newGuardedVector [] 2 = none := by
  decide

/-- C3 (amended): `newGuardedVector` accepts an empty reference sequence only
for stride magnitude 1, in which case it returns an empty vector and the two
`NaN`-filled guard regions of length 2; for every stride magnitude at least 2
and empty data the construction panics (inverted slice bounds). -/
theorem newGuardedVector_empty (inc : Int) :
    (inc.natAbs = 1 →
      newGuardedVector [] inc = some ([], [F.nan, F.nan], [F.nan, F.nan])) ∧
    (2 ≤ inc.natAbs → newGuardedVector [] inc = none) := by
  constructor
  · intro h
    have h2 := Int.natAbs_eq inc
    rw [h] at h2
    rcases h2 with h1 | h1 <;> rw [h1] <;> decide
  · intro h
    rcases Int.natAbs_eq inc with h1 | h1 <;>
      · rw [h1]
        simp only [newGuardedVector, normInc_eq_natAbs, Int.natAbs_neg,
          Int.natAbs_ofNat, List.length_nil]
        split
        · rfl
        · split
          · exfalso; omega
          · rfl

theorem newGuardedVector_eq (data : List F) (inc : Int) (hd : data ≠ [])
    (hi : 1 ≤ inc.natAbs) :
    newGuardedVector data inc = some
      (writeAll (List.replicate ((data.length - 1) * inc.natAbs + 1) F.nan)
         (data.enum.map (fun p => (p.1 * inc.natAbs, p.2))),
       List.replicate (2 * inc.natAbs) F.nan,
       List.replicate (2 * inc.natAbs) F.nan) := by
  have hn : 1 ≤ data.length := List.length_pos.mpr hd
  have hp : (0:ℤ) ≤ ((data.length:ℤ) - 1) * ((inc.natAbs:ℤ)) :=
    mul_nonneg (by omega) (by omega)
  have hsize : ((data.length:ℤ) - 1) * ((inc.natAbs:ℤ)) + 1
      = (((data.length - 1) * inc.natAbs + 1 : ℕ) : ℤ) := by
    have h1 : ((data.length - 1 : ℕ) : ℤ) = (data.length : ℤ) - 1 := by omega
    push_cast [h1]
    ring
  simp only [newGuardedVector, normInc_eq_natAbs]
  split
  · exfalso; omega
  · split
    case isTrue hc =>
      rw [hsize]
      have hA : (((((data.length - 1) * inc.natAbs + 1 : ℕ)) : ℤ)
          + 2 * (2 * (inc.natAbs:ℤ))).toNat
          = (data.length - 1) * inc.natAbs + 1 + 4 * inc.natAbs := by omega
      have hB : (((((data.length - 1) * inc.natAbs + 1 : ℕ)) : ℤ)
          + 2 * (2 * (inc.natAbs:ℤ)) - 2 * (inc.natAbs:ℤ)).toNat
          = (data.length - 1) * inc.natAbs + 1 + 2 * inc.natAbs := by omega
      have h2m : ((2:ℤ) * ((inc.natAbs:ℤ))).toNat = 2 * inc.natAbs := by omega
      rw [hA, hB, h2m]
      simp only [Int.toNat_natCast]
      simp only [List.drop_replicate, List.take_replicate]
      have e1 : ((data.length - 1) * inc.natAbs + 1)
          ⊓ ((data.length - 1) * inc.natAbs + 1 + 4 * inc.natAbs - 2 * inc.natAbs)
          = (data.length - 1) * inc.natAbs + 1 := by omega
      have e2 : 2 * inc.natAbs
          ⊓ ((data.length - 1) * inc.natAbs + 1 + 4 * inc.natAbs)
          = 2 * inc.natAbs := by omega
      have e3 : (data.length - 1) * inc.natAbs + 1 + 4 * inc.natAbs
          - ((data.length - 1) * inc.natAbs + 1 + 2 * inc.natAbs)
          = 2 * inc.natAbs := by omega
      rw [e1, e2, e3]
    case isFalse hc =>
      exact absurd ⟨by omega, by omega⟩ hc

theorem stridedWrite_get (data : List F) (m : ℕ) (hm : 1 ≤ m) (i : ℕ)
    (h : i < data.length) :
    (writeAll (List.replicate ((data.length - 1) * m + 1) F.nan)
      (data.enum.map (fun p => (p.1 * m, p.2))))[i * m]? = some data[i] := by
  apply getElem?_writeAll_of_mem
  · rw [List.mem_map]
    exact ⟨(i, data[i]), List.mem_enum_iff_getElem?.mpr (List.getElem?_eq_getElem h), rfl⟩
  · intro p hp hpk
    rw [List.mem_map] at hp
    obtain ⟨q, hq, hqp⟩ := hp
    rw [List.mem_enum_iff_getElem?] at hq
    subst hqp
    have hq1 : q.1 = i := Nat.eq_of_mul_eq_mul_right (by omega) hpk
    rw [hq1, List.getElem?_eq_getElem h] at hq
    exact (Option.some.inj hq).symm
  · rw [List.length_replicate]
    have : i * m ≤ (data.length - 1) * m := Nat.mul_le_mul_right m (by omega)
    omega

theorem stridedWrite_nonstride (data : List F) (m : ℕ) (j : ℕ)
    (hj : j < (data.length - 1) * m + 1) (hns : j % m ≠ 0) :
    (writeAll (List.replicate ((data.length - 1) * m + 1) F.nan)
      (data.enum.map (fun p => (p.1 * m, p.2))))[j]? = some F.nan := by
  rw [getElem?_writeAll_of_forall_ne]
  · rw [List.getElem?_replicate, if_pos hj]
  · intro p hp
    rw [List.mem_map] at hp
    obtain ⟨q, _, hqp⟩ := hp
    rw [← hqp]
    intro heq
    apply hns
    rw [← heq]
    exact Nat.mul_mod_left q.1 m

theorem equalStridedAux_of_reads (x : List F) (m : ℕ) :
    ∀ (ref : List F) (i0 : ℕ),
      (∀ j (h : j < ref.length), ∃ xv,
        x[(i0 + j) * m]? = some xv ∧ Same xv ref[j] = true) →
      equalStridedAux x m ref i0 = some true := by
  intro ref
  induction ref with
  | nil => intro i0 _; rfl
  | cons r rest ih =>
    intro i0 h
    obtain ⟨xv, hread, hsame⟩ := h 0 (by simp)
    rw [Nat.add_zero] at hread
    simp only [List.getElem_cons_zero] at hsame
    simp only [equalStridedAux, hread, hsame, if_true]
    apply ih
    intro j hj
    obtain ⟨xv', hread', hsame'⟩ := h (j + 1) (by simpa using hj)
    have harith : i0 + (j + 1) = i0 + 1 + j := by omega
    rw [harith] at hread'
    simp only [List.getElem_cons_succ] at hsame'
    exact ⟨xv', hread', hsame'⟩

theorem allNaN_replicate (k : ℕ) : allNaN (List.replicate k F.nan) = true := by
  rw [allNaN, List.all_eq_true]
  intro x hx
  rw [List.mem_replicate] at hx
  rw [hx.2]
  rfl

/-- C4: for every non-empty data slice and stride of magnitude at least 1,
`newGuardedVector` returns a strided vector `v` with `v[i*|inc|] = data[i]`,
`NaN` at every other offset, and two adjacent `NaN`-filled guards of length
`2*|inc|`; validating immediately with `allNaN` on both guards,
`equalStrided`, and `nonStridedWrite` reports no violation. -/
theorem newGuardedVector_spec (data : List F) (inc : Int)
    (hd : data ≠ []) (hi : 1 ≤ inc.natAbs) :
    ∃ v front back,
      newGuardedVector data inc = some (v, front, back) ∧
      front = List.replicate (2 * inc.natAbs) F.nan ∧
      back = List.replicate (2 * inc.natAbs) F.nan ∧
      v.length = (data.length - 1) * inc.natAbs + 1 ∧
      (∀ i, (h : i < data.length) → v[i * inc.natAbs]? = some data[i]) ∧
      (∀ j, j < v.length → j % inc.natAbs ≠ 0 → v[j]? = some F.nan) ∧
      allNaN front = true ∧
      allNaN back = true ∧
      equalStrided data v inc = some true ∧
      nonStridedWrite v inc = false := by
  refine ⟨_, _, _, newGuardedVector_eq data inc hd hi, rfl, rfl, ?_, ?_, ?_,
    allNaN_replicate _, allNaN_replicate _, ?_, ?_⟩
  · rw [length_writeAll, List.length_replicate]
  · intro i h
    exact stridedWrite_get data inc.natAbs hi i h
  · intro j hj hns
    rw [length_writeAll, List.length_replicate] at hj
    exact stridedWrite_nonstride data inc.natAbs j hj hns
  · simp only [equalStrided, normInc_eq_natAbs, Int.toNat_natCast]
    apply equalStridedAux_of_reads
    intro j h
    refine ⟨data[j], ?_, Same_refl _⟩
    rw [Nat.zero_add]
    exact stridedWrite_get data inc.natAbs hi j h
  · simp only [nonStridedWrite, normInc_eq_natAbs, Int.toNat_natCast]
    rw [List.any_eq_false]
    intro p hp
    rw [List.mem_enum_iff_getElem?] at hp
    by_cases hmod : p.1 % inc.natAbs = 0
    · simp [hmod]
    · have hlt : p.1 < (data.length - 1) * inc.natAbs + 1 := by
        have := (List.getElem?_eq_some_iff.mp hp).choose
        rwa [length_writeAll, List.length_replicate] at this
      have hnan := stridedWrite_nonstride data inc.natAbs p.1 hlt hmod
      rw [hp] at hnan
      have : p.2 = F.nan := Option.some.inj hnan
      simp [this, F.isNaN]

theorem newGuardedVector_empty_witness :
    newGuardedVector [] 1 = some ([], [F.nan, F.nan], [F.nan, F.nan]) ∧
    newGuardedVector [] (-3) = none :=
  ⟨(newGuardedVector_empty 1).1 (by decide), (newGuardedVector_empty (-3)).2 (by decide)⟩

theorem newGuardedVector_spec_witness :
    ([F.fin 1, F.fin 2] : List F) ≠ [] ∧ 1 ≤ (2:ℤ).natAbs ∧
    (∃ v front back,
      newGuardedVector [F.fin 1, F.fin 2] 2 = some (v, front, back) ∧
      front = List.replicate (2 * (2:ℤ).natAbs) F.nan ∧
      back = List.replicate (2 * (2:ℤ).natAbs) F.nan ∧
      v.length = (([F.fin 1, F.fin 2] : List F).length - 1) * (2:ℤ).natAbs + 1 ∧
      (∀ i, (h : i < ([F.fin 1, F.fin 2] : List F).length) →
        v[i * (2:ℤ).natAbs]? = some ([F.fin 1, F.fin 2] : List F)[i]) ∧
      (∀ j, j < v.length → j % (2:ℤ).natAbs ≠ 0 → v[j]? = some F.nan) ∧
      allNaN front = true ∧
      allNaN back = true ∧
      equalStrided [F.fin 1, F.fin 2] v 2 = some true ∧
      nonStridedWrite v 2 = false) :=
  ⟨by decide, by decide, newGuardedVector_spec [F.fin 1, F.fin 2] 2 (by decide) (by decide)⟩

theorem filterMap_guarded (l : List α) (c1 c2 : α → Prop) [DecidablePred c1]
    [DecidablePred c2] (f : α → Option β) (g : α → β)
    (hf : ∀ a, f a = if c1 a then none else if c2 a then none else some (g a)) :
    l.filterMap f = (l.filter (fun a => decide (¬ c1 a) && decide (¬ c2 a))).map g := by
  induction l with
  | nil => rfl
  | cons a as ih =>
    rw [List.filterMap_cons, List.filter_cons, hf a]
    by_cases h1 : c1 a
    · simp [h1, ih]
    · by_cases h2 : c2 a
      · simp [h1, h2, ih]
      · simp [h1, h2, ih]

theorem checkValidIncGuard_empty_iff (vec : List F) (gdVal : F) (inc : Int)
    (gdLen : ℕ) :
    checkValidIncGuard vec gdVal inc gdLen = [] ↔
      ∀ p ∈ vec.enum, Same p.2 gdVal = true ∨
        (((p.1 : Int) - gdLen).tmod inc = 0 ∧
          ((p.1 : Int) - gdLen).tdiv inc < (vec.length : Int)) := by
  rw [checkValidIncGuard, List.filterMap_eq_nil_iff]
  constructor
  · intro h p hp
    have hfp := h p hp
    by_cases h1 : Same p.2 gdVal = true
    · exact Or.inl h1
    · by_cases h2 : ((p.1 : Int) - gdLen).tmod inc = 0 ∧
          ((p.1 : Int) - gdLen).tdiv inc < (vec.length : Int)
      · exact Or.inr h2
      · rw [if_neg h1, if_neg h2] at hfp
        split at hfp <;> (try split at hfp) <;> simp_all
  · intro h p hp
    rcases h p hp with h1 | h2
    · rw [if_pos h1]
    · by_cases h1 : Same p.2 gdVal = true
      · rw [if_pos h1]
      · rw [if_neg h1, if_pos h2]

/-- C2 counterexample: `checkValidIncGuard` does not classify every corrupted
non-data offset.  First: in the buffer from `guardIncVector [1,2,3] 0 3 4`
with back-guard offset 13 overwritten by 5, the corrupted offset is
stride-aligned, passes the skip test, and no violation is reported at all.
Second: in a buffer of length 13 with `gdLen = 4`, `inc = 3` (so `srcLn = 5`)
and offset 9 — the first back-guard cell — overwritten by 5, the violation is
reported as internal rather than as a back-guard violation. -/
theorem checkValidIncGuard_counterexample :
    (checkValidIncGuard
        ((guardIncVector [F.fin 1, F.fin 2, F.fin 3] (F.fin 0) 3 4).set 13 (F.fin 5))
        (F.fin 0) 3 4 = [] ∧
      Same (((guardIncVector [F.fin 1, F.fin 2, F.fin 3] (F.fin 0) 3 4).set 13
        (F.fin 5)).getD 13 F.nan) (F.fin 0) = false) ∧
    checkValidIncGuard ((List.replicate 13 (F.fin 0)).set 9 (F.fin 5)) (F.fin 0) 3 4
      = [Violation.internal 5] := by
  decide

/-- C2 (amended): `checkValidIncGuard` scans every physical offset in one
pass without aborting, and reports exactly one violation — front
(`i < gdLen`), back (`i > gdLen + srcLn`), internal (otherwise), carrying
the offset the code prints — for each offset whose value is not `Same` as
the sentinel and that fails the code's stride-skip test
`(i-gdLen) tmod inc = 0 ∧ (i-gdLen) tdiv inc < len(vec)`; offsets passing
the skip test are never reported, even corrupted offsets inside the
guards. -/
theorem checkValidIncGuard_spec (vec : List F) (gdVal : F) (inc : Int) (gdLen : ℕ) :
    checkValidIncGuard vec gdVal inc gdLen =
      (vec.enum.filter (fun p => decide (¬ Same p.2 gdVal = true) &&
          decide (¬ (((p.1 : Int) - gdLen).tmod inc = 0 ∧
            ((p.1 : Int) - gdLen).tdiv inc < (vec.length : Int))))).map
        (fun p =>
          if (p.1 : Int) < (gdLen : Int) then Violation.front p.1
          else if (p.1 : Int) > (gdLen : Int) + ((vec.length : Int) - 2 * gdLen) then
            Violation.back ((p.1 : Int) - gdLen - ((vec.length : Int) - 2 * gdLen))
          else Violation.internal ((p.1 : Int) - gdLen)) := by
  rw [checkValidIncGuard]
  apply filterMap_guarded
  intro a
  by_cases h1 : Same a.2 gdVal = true
  · simp [h1]
  · by_cases h2 : ((a.1 : Int) - gdLen).tmod inc = 0 ∧
        ((a.1 : Int) - gdLen).tdiv inc < (vec.length : Int)
    · simp [h1, h2]
    · by_cases h3 : (a.1 : Int) < (gdLen : Int)
      · simp [h1, h2, h3]
      · by_cases h4 : (a.1 : Int) > (gdLen : Int) + ((vec.length : Int) - 2 * gdLen)
        · simp [h1, h2, h3, h4]
        · simp [h1, h2, h3, h4]

/-- C5: with guard length 4, stride 3 and data `[1,2,3]`, `guardIncVector`
produces a buffer of length 17 holding the sentinel at every offset except
4, 7 and 10, which hold the data values, and `checkValidIncGuard` on the
untouched buffer reports no violation — for every sentinel value. -/
theorem guardIncVector_concrete (gdVal : F) :
    (guardIncVector [F.fin 1, F.fin 2, F.fin 3] gdVal 3 4).length = 17 ∧
    (guardIncVector [F.fin 1, F.fin 2, F.fin 3] gdVal 3 4)[4]? = some (F.fin 1) ∧
    (guardIncVector [F.fin 1, F.fin 2, F.fin 3] gdVal 3 4)[7]? = some (F.fin 2) ∧
    (guardIncVector [F.fin 1, F.fin 2, F.fin 3] gdVal 3 4)[10]? = some (F.fin 3) ∧
    (∀ k, k < 17 → k ≠ 4 → k ≠ 7 → k ≠ 10 →
      (guardIncVector [F.fin 1, F.fin 2, F.fin 3] gdVal 3 4)[k]? = some gdVal) ∧
    checkValidIncGuard (guardIncVector [F.fin 1, F.fin 2, F.fin 3] gdVal 3 4)
      gdVal 3 4 = [] := by
  have hB : guardIncVector [F.fin 1, F.fin 2, F.fin 3] gdVal 3 4 =
      [gdVal, gdVal, gdVal, gdVal, F.fin 1, gdVal, gdVal, F.fin 2, gdVal, gdVal,
       F.fin 3, gdVal, gdVal, gdVal, gdVal, gdVal, gdVal] := rfl
  rw [hB]
  refine ⟨rfl, rfl, rfl, rfl, ?_, ?_⟩
  · intro k hk h4 h7 h10
    interval_cases k <;> first | rfl | omega
  · rw [checkValidIncGuard_empty_iff]
    intro p hp
    fin_cases hp <;>
      first
        | (exact Or.inl (Same_refl _))
        | (refine Or.inr ?_
           simp only [List.length_cons, List.length_nil]
           decide)

/-- C9: the guarded-buffer builders are insensitive to the sign of the
stride: `newGuardedVector` and `guardIncVector` behave identically on `inc`
and `-inc`, for every data slice, sentinel value, guard length and
stride. -/
theorem builders_stride_sign_insensitive :
    (∀ (data : List F) (inc : Int),
      newGuardedVector data (-inc) = newGuardedVector data inc) ∧
    (∀ (vec : List F) (gdVal : F) (inc : Int) (gdLen : ℕ),
      guardIncVector vec gdVal (-inc) gdLen = guardIncVector vec gdVal inc gdLen) := by
  constructor
  · intro data inc
    simp only [newGuardedVector, normInc_eq_natAbs, Int.natAbs_neg]
  · intro vec gdVal inc gdLen
    simp only [guardIncVector, normInc_eq_natAbs, Int.natAbs_neg]

theorem mixed_index_inj {n a b c d : ℕ} (hb : b < n) (hd : d < n)
    (h : a * n + b = c * n + d) : a = c ∧ b = d := by
  have hstep : ∀ {a' c' b' d' : ℕ}, b' < n → a' < c' → a' * n + b' < c' * n + d' := by
    intro a' c' b' d' hb' hac
    calc a' * n + b' < a' * n + n := by omega
    _ = (a' + 1) * n := by ring
    _ ≤ c' * n := Nat.mul_le_mul_right n hac
    _ ≤ c' * n + d' := Nat.le_add_right _ _
  have ha : a = c := by
    rcases Nat.lt_trichotomy a c with h1 | h1 | h1
    · exact absurd h (Nat.ne_of_lt (hstep hb h1))
    · exact h1
    · exact absurd h.symm (Nat.ne_of_lt (hstep hd h1))
  subst ha
  exact ⟨rfl, by omega⟩

theorem mixed_index_lt {a y m n : ℕ} (ha : a < m) (hy : y < n) :
    a * n + y < m * n := by
  calc a * n + y < a * n + n := by omega
  _ = (a + 1) * n := by ring
  _ ≤ m * n := Nat.mul_le_mul_right n ha

/-- C8: for every list of axis values of length `n`, `newIncSet` returns the
`n*n` ordered pairs with `(inc[x], inc[y])` at index `x*n+y`, `newIncToSet`
returns the `n*n*n` ordered triples with `(inc[i], inc[x], inc[y])` at index
`i*n*n+x*n+y`, and both enumerators are deterministic. -/
theorem enumerators_spec (inc : List Int) :
    (newIncSet inc).length = inc.length * inc.length ∧
    (newIncToSet inc).length = inc.length * inc.length * inc.length ∧
    (∀ x y, (hx : x < inc.length) → (hy : y < inc.length) →
      (newIncSet inc)[x * inc.length + y]? = some ⟨inc[x], inc[y]⟩) ∧
    (∀ i x y, (hi : i < inc.length) → (hx : x < inc.length) →
      (hy : y < inc.length) →
      (newIncToSet inc)[i * inc.length * inc.length + x * inc.length + y]? =
        some ⟨inc[i], inc[x], inc[y]⟩) ∧
    newIncSet inc = newIncSet inc ∧
    newIncToSet inc = newIncToSet inc := by
  refine ⟨?_, ?_, ?_, ?_, rfl, rfl⟩
  · simp only [newIncSet]
    rw [length_writeAll, List.length_replicate]
  · simp only [newIncToSet]
    rw [length_writeAll, List.length_replicate]
  · intro x y hx hy
    simp only [newIncSet]
    apply getElem?_writeAll_of_mem
    · rw [List.mem_flatMap]
      refine ⟨(x, inc[x]), List.mem_enum_iff_getElem?.mpr (List.getElem?_eq_getElem hx), ?_⟩
      rw [List.mem_map]
      exact ⟨(y, inc[y]), List.mem_enum_iff_getElem?.mpr (List.getElem?_eq_getElem hy), rfl⟩
    · intro p hp hpk
      rw [List.mem_flatMap] at hp
      obtain ⟨px, hpx, hpmap⟩ := hp
      rw [List.mem_map] at hpmap
      obtain ⟨py, hpy, hpeq⟩ := hpmap
      subst hpeq
      rw [List.mem_enum_iff_getElem?] at hpx hpy
      have hpy1 : py.1 < inc.length := (List.getElem?_eq_some_iff.mp hpy).choose
      obtain ⟨hxeq, hyeq⟩ := mixed_index_inj hpy1 hy hpk
      rw [hxeq, List.getElem?_eq_getElem hx] at hpx
      rw [hyeq, List.getElem?_eq_getElem hy] at hpy
      have e1 : px.2 = inc[x] := (Option.some.inj hpx).symm
      have e2 : py.2 = inc[y] := (Option.some.inj hpy).symm
      rw [e1, e2]
    · rw [List.length_replicate]
      exact mixed_index_lt hx hy
  · intro i x y hi hx hy
    simp only [newIncToSet]
    apply getElem?_writeAll_of_mem
    · rw [List.mem_flatMap]
      refine ⟨(i, inc[i]), List.mem_enum_iff_getElem?.mpr (List.getElem?_eq_getElem hi), ?_⟩
      rw [List.mem_flatMap]
      refine ⟨(x, inc[x]), List.mem_enum_iff_getElem?.mpr (List.getElem?_eq_getElem hx), ?_⟩
      rw [List.mem_map]
      exact ⟨(y, inc[y]), List.mem_enum_iff_getElem?.mpr (List.getElem?_eq_getElem hy), rfl⟩
    · intro p hp hpk
      rw [List.mem_flatMap] at hp
      obtain ⟨pi, hpi, hpmap⟩ := hp
      rw [List.mem_flatMap] at hpmap
      obtain ⟨px, hpx, hpmap2⟩ := hpmap
      rw [List.mem_map] at hpmap2
      obtain ⟨py, hpy, hpeq⟩ := hpmap2
      subst hpeq
      rw [List.mem_enum_iff_getElem?] at hpi hpx hpy
      have hpi1 : pi.1 < inc.length := (List.getElem?_eq_some_iff.mp hpi).choose
      have hpx1 : px.1 < inc.length := (List.getElem?_eq_some_iff.mp hpx).choose
      have hpy1 : py.1 < inc.length := (List.getElem?_eq_some_iff.mp hpy).choose
      have hre1 : pi.1 * inc.length * inc.length + px.1 * inc.length + py.1
          = (pi.1 * inc.length + px.1) * inc.length + py.1 := by ring
      have hre2 : i * inc.length * inc.length + x * inc.length + y
          = (i * inc.length + x) * inc.length + y := by ring
      rw [hre1, hre2] at hpk
      obtain ⟨hincomb, hyeq⟩ := mixed_index_inj hpy1 hy hpk
      obtain ⟨hieq, hxeq⟩ := mixed_index_inj hpx1 hx hincomb
      rw [hieq, List.getElem?_eq_getElem hi] at hpi
      rw [hxeq, List.getElem?_eq_getElem hx] at hpx
      rw [hyeq, List.getElem?_eq_getElem hy] at hpy
      have e0 : pi.2 = inc[i] := (Option.some.inj hpi).symm
      have e1 : px.2 = inc[x] := (Option.some.inj hpx).symm
      have e2 : py.2 = inc[y] := (Option.some.inj hpy).symm
      rw [e0, e1, e2]
    · rw [List.length_replicate]
      have h1 : i * inc.length * inc.length + x * inc.length + y
          = (i * inc.length + x) * inc.length + y := by ring
      rw [h1]
      exact mixed_index_lt (mixed_index_lt hi hx) hy

theorem enumerators_spec_witness :
    (newIncSet [0, 1])[1 * 2 + 0]? = some ⟨1, 0⟩ ∧
    (newIncToSet [0, 1])[1 * 2 * 2 + 0 * 2 + 1]? = some ⟨1, 0, 1⟩ :=
  ⟨(enumerators_spec [0, 1]).2.2.1 1 0 (by decide) (by decide),
   (enumerators_spec [0, 1]).2.2.2.1 1 0 1 (by decide) (by decide) (by decide)⟩

theorem foldl_mul_left {M : Type} [Monoid M] (f : ℕ → M) :
    ∀ (l : List ℕ) (a : M),
      l.foldl (fun p k => f k * p) a = ((l.map f).reverse).prod * a := by
  intro l
  induction l with
  | nil => intro a; simp
  | cons x xs ih =>
    intro a
    rw [List.foldl_cons, ih, List.map_cons, List.reverse_cons, List.prod_append,
      List.prod_singleton, mul_assoc]

theorem foldl_mul_right {M : Type} [Monoid M] (f : ℕ → M) :
    ∀ (l : List ℕ) (a : M),
      l.foldl (fun p k => p * f k) a = a * (l.map f).prod := by
  intro l
  induction l with
  | nil => intro a; simp
  | cons x xs ih =>
    intro a
    rw [List.foldl_cons, ih, List.map_cons, List.prod_cons, mul_assoc]

/-- C6: starting from the identity, the cross-checker's accumulation loop
over elementary matrices `P_0 .. P_{K-1}` yields `P_{K-1} * ... * P_1 * P_0`
for `direct = Forward` (each new elementary matrix pre-multiplied) and
`P_0 * P_1 * ... * P_{K-1}` for `direct = Backward` (post-multiplied); with
zero elementary transformations the cumulative matrix is the identity. -/
theorem rotAccum_spec (pivot : Pivot) (pSize : ℕ) (c s : List ℚ) :
    rotAccum pivot Direct.Forward pSize c s =
      (((List.range s.length).map (mkPk pivot pSize c s)).reverse).prod ∧
    rotAccum pivot Direct.Backward pSize c s =
      ((List.range s.length).map (mkPk pivot pSize c s)).prod ∧
    (∀ direct, rotAccum pivot direct pSize c [] = 1) := by
  refine ⟨?_, ?_, fun _ => rfl⟩
  · rw [rotAccum]
    rw [List.foldl_ext _ (fun p k => mkPk pivot pSize c s k * p) 1
      (fun p k _ => if_pos rfl)]
    rw [foldl_mul_left, mul_one]
  · rw [rotAccum]
    rw [List.foldl_ext _ (fun p k => p * mkPk pivot pSize c s k) 1
      (fun p k _ => if_neg (fun h => Direct.noConfusion h))]
    rw [foldl_mul_right, one_mul]

theorem goCopy_of_length_eq (dst src : List α) (h : src.length = dst.length) :
    goCopy dst src = src := by
  have hmin : min dst.length src.length = src.length := by omega
  rw [goCopy, hmin, List.take_length, List.drop_eq_nil_of_le (by omega), List.append_nil]

theorem getD_replicate (n : ℕ) (d : α) (i : ℕ) :
    (List.replicate n d).getD i d = d := by
  rw [List.getD_eq_getElem?_getD, List.getElem?_replicate]
  split <;> rfl

theorem gemmNN_zero_right (p : GeMat) (m n lda : ℕ) :
    (gemmNN 1 p ⟨m, n, lda, List.replicate (m * lda) 0⟩ 0
      ⟨m, n, lda, List.replicate (m * lda) 0⟩).data
      = List.replicate (m * lda) 0 := by
  rw [gemmNN]
  refine List.eq_replicate_iff.mpr ⟨?_, ?_⟩
  · rw [List.length_map, List.length_range, List.length_replicate]
  · intro b hb
    rw [List.mem_map] at hb
    obtain ⟨idx, _, rfl⟩ := hb
    dsimp only
    split
    · rw [List.sum_eq_zero, getD_replicate]
      · ring
      · intro x hx
        rw [List.mem_map] at hx
        obtain ⟨l, _, rfl⟩ := hx
        rw [getD_replicate, mul_zero]
    · exact getD_replicate _ _ _

theorem gemmNN_zero_left (p : GeMat) (m n lda : ℕ) :
    (gemmNN 1 ⟨m, n, lda, List.replicate (m * lda) 0⟩ p 0
      ⟨m, n, lda, List.replicate (m * lda) 0⟩).data
      = List.replicate (m * lda) 0 := by
  rw [gemmNN]
  refine List.eq_replicate_iff.mpr ⟨?_, ?_⟩
  · rw [List.length_map, List.length_range, List.length_replicate]
  · intro b hb
    rw [List.mem_map] at hb
    obtain ⟨idx, _, rfl⟩ := hb
    dsimp only
    split
    · rw [List.sum_eq_zero, getD_replicate]
      · ring
      · intro x hx
        rw [List.mem_map] at hx
        obtain ⟨l, _, rfl⟩ := hx
        rw [getD_replicate, zero_mul]
    · exact getD_replicate _ _ _

theorem equalApproxQ_refl (l : List ℚ) (tol : ℚ) : equalApproxQ l l tol = true := by
  rw [equalApproxQ, Bool.and_eq_true]
  refine ⟨by simp, ?_⟩
  induction l with
  | nil => rfl
  | cons x xs ih =>
    rw [List.zip_cons_cons, List.all_cons, ih, Bool.and_true]
    simp

/-- C1 (evaluation of the code at the failing scenario): `DlasrTest` never
reports a mismatch, for any implementation under test, any side, pivot,
direction, dimensions and random draws — because `copy(a, aCopy)` zeroes the
input before the `Dlasr` call, zeroes the output again before the
comparison, and the reference matrix `aMat` is never filled from `A`, so the
trial compares `P*0` (or `0*P`) with `0`. -/
theorem dlasrTrialMismatch_never
    (impl : Side → Pivot → Direct → ℕ → ℕ → List ℚ → List ℚ → List ℚ → ℕ → List ℚ)
    (himpl : ∀ side pivot direct m n c s a lda,
      (impl side pivot direct m n c s a lda).length = a.length)
    (side : Side) (pivot : Pivot) (direct : Direct) (m n lda : ℕ)
    (aInit c s : List ℚ) (ha : aInit.length = m * lda) :
    dlasrTrialMismatch impl side pivot direct m n lda aInit c s = false := by
  rw [dlasrTrialMismatch]
  have hc1 : goCopy aInit (List.replicate aInit.length (0:ℚ))
      = List.replicate aInit.length 0 :=
    goCopy_of_length_eq _ _ (by rw [List.length_replicate])
  rw [hc1]
  have hc2 : goCopy (impl side pivot direct m n c s (List.replicate aInit.length 0) lda)
      (List.replicate aInit.length (0:ℚ)) = List.replicate aInit.length 0 :=
    goCopy_of_length_eq _ _ (by rw [List.length_replicate, himpl, List.length_replicate])
  rw [hc2, ha]
  cases side
  · rw [if_pos rfl, if_pos rfl, gemmNN_zero_right, equalApproxQ_refl]
    rfl
  · rw [if_neg (fun h => Side.noConfusion h), if_neg (fun h => Side.noConfusion h),
      gemmNN_zero_left, equalApproxQ_refl]
    rfl

theorem dlasrTrialMismatch_never_witness :
    dlasrTrialMismatch (fun _ _ _ _ _ _ _ a _ => a) Side.L Pivot.Variable
      Direct.Forward 5 5 5 (List.replicate 25 1)
      [1, 0, 0, 0] [0, 1, 0, 0] = false :=
  dlasrTrialMismatch_never (fun _ _ _ _ _ _ _ a _ => a)
    (fun _ _ _ _ _ _ _ _ _ => rfl) Side.L Pivot.Variable Direct.Forward
    5 5 5 (List.replicate 25 1) [1, 0, 0, 0] [0, 1, 0, 0] (by decide)
